import Mathlib

/-!
A verification development for a small file-storage server (`src/server.js`).

The server manages a directory tree under a storage root (`publicDir`):
uploads resolve a client-supplied directory string and filename to an
on-disk location (multer `storage.destination` / `storage.filename`),
and read-side endpoints list, inspect and delete stored objects.

The embedding below models:
 * the JavaScript string normalization used on directory strings
   (`trim`, strip of leading/trailing `/` characters);
 * Node's `path.join` applied to an absolute, already-normalized root:
   a path is a list of segments, and joining folds the raw segments,
   dropping empty and `.` segments and letting `..` pop the last
   segment; a trailing separator is preserved (as Node does) and is
   encoded as a trailing empty segment, which `statSync` then resolves
   the POSIX way (only against a directory);
 * Node's `path.extname` / `path.basename` on filenames;
 * the filename collision loop of `storage.filename`;
 * the filesystem as an association list from absolute paths to entries,
   with `existsSync` / `statSync` / `unlinkSync` / `readdirSync` /
   `mkdirSync {recursive}` over it;
 * the `/files` (list), `/files/:filePath` (info and delete) handlers.
-/

/-- Whitespace as stripped by JavaScript `String.prototype.trim`
(the ASCII subset; the server only ever receives these in practice). -/
def isWsChar (c : Char) : Bool :=
  c == ' ' || c == '\t' || c == '\n' || c == '\r' || c == '\x0b' || c == '\x0c'

/-- JavaScript `String.prototype.trim`: drop whitespace from both ends. -/
def jsTrim (s : String) : String :=
  ⟨((s.data.dropWhile isWsChar).reverse.dropWhile isWsChar).reverse⟩

/-- `replace(/^\/+/, '')`: strip all leading `/` characters. -/
def stripLeadingSlashes (s : String) : String :=
  ⟨s.data.dropWhile (fun c => c == '/')⟩

/-- `replace(/\/+$/, '')`: strip all trailing `/` characters. -/
def stripTrailingSlashes (s : String) : String :=
  ⟨(s.data.reverse.dropWhile (fun c => c == '/')).reverse⟩

/-- `const cleanDir = dir ? dir.trim().replace(/^\/+/, '').replace(/\/+$/, '') : ''`
(server.js line 40; the empty string is falsy in JavaScript). -/
def cleanDir (dir : String) : String :=
  if dir ≠ "" then stripTrailingSlashes (stripLeadingSlashes (jsTrim dir)) else ""

/-- Split a character list on `/`, keeping empty segments,
as `path.join`'s normalization does before collapsing. -/
def splitOnSlash : List Char → List (List Char)
  | [] => [[]]
  | c :: cs =>
    if c = '/' then [] :: splitOnSlash cs
    else (c :: (splitOnSlash cs).headI) :: (splitOnSlash cs).tail

/-- An absolute filesystem path, as its list of segments
(the storage root `publicDir` is absolute and already normalized). -/
abbrev AbsPath := List String

/-- The raw segments of a relative path string. -/
def segsOf (s : String) : List String :=
  (splitOnSlash s.data).map (fun cs => (⟨cs⟩ : String))

/-- One step of `path.join`'s normalization over an absolute base:
empty and `.` segments are dropped, `..` pops the last segment
(at the root, `..` is dropped), anything else is appended. -/
def normStep (acc : AbsPath) (seg : String) : AbsPath :=
  if seg = "" ∨ seg = "." then acc
  else if seg = ".." then acc.dropLast
  else acc ++ [seg]

/-- Whether the raw path string ends in `/`: Node `path.join` and
`path.normalize` preserve a trailing separator. -/
def endsWithSlash (s : String) : Bool :=
  match s.data.reverse with
  | [] => false
  | c :: _ => c == '/'

/-- `path.join(root, s)` for an absolute, normalized `root`: fold the raw
segments of `s` into `root`, collapsing `.`, `..` and redundant
separators; a trailing separator is preserved by Node and is encoded
here as one trailing empty segment (legitimate segments are never
empty, since `normStep` drops empty segments). -/
def joinPath (root : AbsPath) (s : String) : AbsPath :=
  let collapsed := (segsOf s).foldl normStep root
  if endsWithSlash s = true then collapsed ++ [""] else collapsed

/-- Whether a joined path carries the trailing-separator marker. -/
def hasMarker (p : AbsPath) : Bool := decide (p.getLastD "." = "")

/-- Drop a trailing-separator marker: `path.basename` and directory
enumeration treat `dir/` like `dir`. -/
def stripMarker (p : AbsPath) : AbsPath :=
  if hasMarker p = true then p.dropLast else p

/-- The upload destination directory (server.js line 42):
`path.join(publicDir, cleanDir)`. -/
def destinationDir (root : AbsPath) (dir : String) : AbsPath :=
  joinPath root (cleanDir dir)

-- Decimal rendering of a counter, as JavaScript's `${counter}`
-- (number-to-string) produces. Structural fuel so that the kernel
-- can evaluate it; `natStrCore (n+1) n` always has enough fuel.

/-- Decimal digits of `n` (most significant first), with fuel. -/
def natStrCore : Nat → Nat → List Char
  | 0, _ => []
  | fuel + 1, n =>
    if n < 10 then [Nat.digitChar n]
    else natStrCore fuel (n / 10) ++ [Nat.digitChar (n % 10)]

/-- JavaScript `${n}` for a natural number: its decimal string. -/
def natStr (n : Nat) : String := ⟨natStrCore (n + 1) n⟩

-- Node `path.extname` / `path.basename`, modelled on character lists.

/-- The part of a path string after its last `/` (the whole string when
there is no `/`), as `path.basename` computes it. -/
def lastSlashSeg (cs : List Char) : List Char := (splitOnSlash cs).getLastD []

/-- Node `path.extname`: on the basename, the suffix starting at the last
`.`; empty when there is no dot, when the only dot is the leading
character (dotfiles such as `.bashrc`), or on the special name `..`. -/
def extnameChars (cs : List Char) : List Char :=
  let b := lastSlashSeg cs
  if b = ['.', '.'] then []
  else
    let tail := b.reverse.takeWhile (fun c => c != '.')
    if tail.length = b.length then []
    else if b.length = tail.length + 1 then []
    else '.' :: tail.reverse

/-- `path.extname(s)` as a string. -/
def extname (s : String) : String := ⟨extnameChars s.data⟩

/-- `path.basename(s, path.extname(s))`: the basename with its
extension removed (server.js lines 82, 91 and 100). -/
def baseNoExt (s : String) : String :=
  let b := lastSlashSeg s.data
  ⟨b.take (b.length - (extnameChars s.data).length)⟩

/-- The candidate final name before collision resolution
(server.js lines 61-93): a non-empty trimmed `fileName` parameter is
used verbatim when it has an extension and gets the original file's
extension appended otherwise; an empty one falls back to the
original filename. -/
def candidateName (fileNameParam : String) (originalname : String) : String :=
  let customFileName := jsTrim fileNameParam
  if customFileName ≠ "" then
    if extname customFileName ≠ "" then customFileName
    else customFileName ++ extname originalname
  else originalname

/-- One rewritten collision candidate:
`` `${nameWithoutExt}_${counter}${ext}` `` (server.js line 101). -/
def mkCand (base ext : String) (k : Nat) : String :=
  base ++ "_" ++ natStr k ++ ext

/-- The `while (fs.existsSync(...))` collision loop of `storage.filename`
(server.js lines 96-103): while `tempName` is taken, rewrite it from
`finalName`'s base and extension with the current counter and increment
the counter. `existing` is the set of names present in the upload
directory. The source loop has no fuel; `allocateName` passes fuel
`existing.length + 2`, which `collideLoop_first_unused` proves sufficient. -/
def collideLoop (existing : List String) (finalName : String) :
    Nat → Nat → String → String
  | 0, _, tempName => tempName
  | fuel + 1, counter, tempName =>
    if tempName ∈ existing then
      collideLoop existing finalName fuel (counter + 1)
        (mkCand (baseNoExt finalName) (extname finalName) counter)
    else tempName

/-- The final stored name for candidate `finalName` in a directory whose
entries are `existing` (server.js lines 95-104). -/
def allocateName (existing : List String) (finalName : String) : String :=
  collideLoop existing finalName (existing.length + 2) 1 finalName

/-- The sequence of names the collision loop tries, starting from state
(`counter`, `tempName`): index 0 is the current `tempName`, index `j+1`
is the rewrite produced with counter value `counter + j`. -/
def candAt (finalName : String) (counter : Nat) (tempName : String) : Nat → String
  | 0 => tempName
  | j + 1 => mkCand (baseNoExt finalName) (extname finalName) (counter + j)

/-- `n` sequential uploads of the same original filename, with no desired
name, into a directory initially holding `start`: each upload stores its
allocated name, which the next allocation then sees. -/
def runUploads (originalname : String) (start : List String) : Nat → List String
  | 0 => start
  | n + 1 =>
    let cur := runUploads originalname start n
    cur ++ [allocateName cur (candidateName "" originalname)]

-- The filesystem: an association list from absolute paths to entries.

/-- A filesystem entry: a regular file or a directory, with its byte
size as `statSync` reports it. -/
inductive Entry
  | file (size : Nat)
  | dir (size : Nat)
deriving DecidableEq

/-- The filesystem state: bindings of absolute paths to entries. -/
abbrev FS := List (AbsPath × Entry)

/-- The entry bound at exactly `p`, when present. -/
def findEntry (fs : FS) (p : AbsPath) : Option Entry :=
  (fs.find? (fun e => decide (e.1 = p))).map (fun e => e.2)

/-- `fs.statSync(p)` with POSIX trailing-slash resolution: a path ending
in a separator (the trailing-marker encoding) resolves only against a
directory — on a regular file the stat fails with ENOTDIR, on a missing
path with ENOENT; without a trailing separator it is a plain lookup. -/
def statSync (fs : FS) (p : AbsPath) : Option Entry :=
  if hasMarker p = true then
    match findEntry fs p.dropLast with
    | some (Entry.dir s) => some (Entry.dir s)
    | _ => none
  else findEntry fs p

/-- `fs.existsSync(p)`. -/
def existsSync (fs : FS) (p : AbsPath) : Bool := (statSync fs p).isSome

/-- `fs.statSync(p).isFile()`. -/
def statIsFile (fs : FS) (p : AbsPath) : Bool :=
  match statSync fs p with
  | some (Entry.file _) => true
  | _ => false

/-- `fs.statSync(p).isDirectory()`. -/
def statIsDirectory (fs : FS) (p : AbsPath) : Bool :=
  match statSync fs p with
  | some (Entry.dir _) => true
  | _ => false

/-- `fs.unlinkSync(p)`: remove the binding at `p`. -/
def unlinkSync (fs : FS) (p : AbsPath) : FS :=
  fs.filter (fun e => !(decide (e.1 = p)))

/-- `stats.size`. -/
def entrySize : Entry → Nat
  | Entry.file s => s
  | Entry.dir s => s

/-- `stats.isFile()`. -/
def entryIsFile : Entry → Bool
  | Entry.file _ => true
  | Entry.dir _ => false

/-- `stats.isDirectory()`. -/
def entryIsDirectory : Entry → Bool
  | Entry.file _ => false
  | Entry.dir _ => true

/-- Create one directory if absent (creating an existing one is not an
error under `recursive: true`). -/
def ensureDir (fs : FS) (q : AbsPath) : FS :=
  if existsSync fs q then fs else fs ++ [(q, Entry.dir 0)]

/-- `fs.mkdirSync(p, { recursive: true })`: create every missing
ancestor of `p` and `p` itself (server.js line 45). -/
def mkdirSyncRecursive (fs : FS) (p : AbsPath) : FS :=
  (List.range (p.length + 1)).foldl (fun acc i => ensureDir acc (p.take i)) fs

/-- multer `storage.destination` (server.js lines 28-47): clean the
`dir` parameter, join it to the storage root, create the directory
tree there, and hand the directory to the writer. -/
def storageDestination (fs : FS) (root : AbsPath) (dir : String) : AbsPath × FS :=
  let uploadDir := destinationDir root dir
  (uploadDir, mkdirSyncRecursive fs uploadDir)

/-- The observed request scheme and host, used only to build URLs. -/
structure Req where
  protocol : String
  host : String

/-- `` `${req.protocol}://${req.get('host')}/${relativePath}` ``. -/
def urlFor (req : Req) (relativePath : String) : String :=
  req.protocol ++ "://" ++ req.host ++ "/" ++ relativePath

/-- The error kinds of the three read/delete endpoints: 404 for a
missing target, 400 for each type mismatch. -/
inductive ApiError
  | NotFound
  | NotAFile
  | NotADirectory
deriving DecidableEq

/-- The metadata record returned for one object (timestamps and the
absolute path echo are omitted; no claim concerns them). -/
structure ObjectRecord where
  name : String
  relativePath : String
  url : Option String
  size : Nat
  isFile : Bool
  isDirectory : Bool
deriving DecidableEq

/-- `DELETE /files/:filePath(*)` (server.js lines 144-168): join the raw
captured path to the storage root, 404 when absent, 400 when not a
regular file, otherwise unlink. Returns the response and the
filesystem afterwards. -/
def deleteFile (fs : FS) (root : AbsPath) (rawPath : String) :
    Except ApiError String × FS :=
  let filePath := joinPath root rawPath
  if existsSync fs filePath = false then (Except.error ApiError.NotFound, fs)
  else if statIsFile fs filePath = false then (Except.error ApiError.NotAFile, fs)
  else (Except.ok rawPath, unlinkSync fs filePath)

/-- `GET /files/:filePath(*)` (server.js lines 171-200): join the raw
captured path to the storage root, 404 when absent, otherwise stat it
and return its record; the `url` field is set from the request for
files and directories alike. -/
def getInfo (fs : FS) (req : Req) (root : AbsPath) (rawPath : String) :
    Except ApiError ObjectRecord :=
  let filePath := joinPath root rawPath
  if existsSync fs filePath = false then Except.error ApiError.NotFound
  else
    match statSync fs filePath with
    | none => Except.error ApiError.NotFound
    | some st =>
      Except.ok
        { name := (stripMarker filePath).getLastD ""
          relativePath := rawPath
          url := some (urlFor req rawPath)
          size := entrySize st
          isFile := entryIsFile st
          isDirectory := entryIsDirectory st }

/-- `e` is bound at an immediate child of directory `d`. -/
def childOf (d : AbsPath) (e : AbsPath × Entry) : Bool :=
  decide (e.1.length = d.length + 1) && d.isPrefixOf e.1

/-- The bindings of the immediate children of `d`: what
`fs.readdirSync(d)` enumerates, paired with what `fs.statSync` then
reports for each name (a trailing separator on `d` is resolved away,
as `readdir` does). -/
def childrenOf (fs : FS) (d : AbsPath) : FS := fs.filter (childOf (stripMarker d))

/-- `fs.readdirSync(d)`: the names of the immediate children. -/
def readdirSync (fs : FS) (d : AbsPath) : List String :=
  (childrenOf fs d).map (fun e => e.1.getLastD "")

/-- One record of the `GET /files` listing (server.js lines 219-235):
`relativePath` is `` folder ? `${folder}/${file}` : file `` and `url`
is populated only when the entry is a regular file. -/
def recordOfChild (req : Req) (folder : String) (e : AbsPath × Entry) : ObjectRecord :=
  let name := e.1.getLastD ""
  let rel := if folder = "" then name else folder ++ "/" ++ name
  { name := name
    relativePath := rel
    url := if entryIsFile e.2 then some (urlFor req rel) else none
    size := entrySize e.2
    isFile := entryIsFile e.2
    isDirectory := entryIsDirectory e.2 }

/-- `GET /files` (server.js lines 203-245): join the raw `folder` query
parameter to the storage root, 404 when absent, 400 when not a
directory, otherwise one record per immediate child plus the `total`
count. -/
def listFiles (fs : FS) (req : Req) (root : AbsPath) (folder : String) :
    Except ApiError (Nat × List ObjectRecord) :=
  let targetDir := joinPath root folder
  if existsSync fs targetDir = false then Except.error ApiError.NotFound
  else if statIsDirectory fs targetDir = false then Except.error ApiError.NotADirectory
  else
    let fileList := (childrenOf fs targetDir).map (recordOfChild req folder)
    Except.ok (fileList.length, fileList)

-- Concrete states used by counterexamples and witnesses.

/-- A storage root, standing for `publicDir`. -/
def rootEx : AbsPath := ["srv", "public"]

/-- A request, for URL construction. -/
def reqEx : Req := { protocol := "http", host := "localhost:9000" }

/-- Storage root and its parent exist; nothing else. -/
def fsEscape : FS := [(["srv", "public"], Entry.dir 0), (["srv"], Entry.dir 0)]

/-- A file outside the storage root, next to it under `srv`. -/
def fsSecret : FS := [(["srv", "public"], Entry.dir 0), (["srv", "secret"], Entry.file 5)]

/-- The storage root with an empty subdirectory `pics`. -/
def fsPics : FS := [(["srv", "public"], Entry.dir 0), (["srv", "public", "pics"], Entry.dir 0)]

/-- The storage root with a subdirectory `docs`. -/
def fsDocs : FS := [(["srv", "public"], Entry.dir 0), (["srv", "public", "docs"], Entry.dir 4096)]

/-- The storage root with a single stored file `a.txt`. -/
def fsOneFile : FS := [(["srv", "public"], Entry.dir 0), (["srv", "public", "a.txt"], Entry.file 3)]

theorem natStrCore_succ (f n : Nat) :
    natStrCore (f + 1) n =
      if n < 10 then [Nat.digitChar n]
      else natStrCore f (n / 10) ++ [Nat.digitChar (n % 10)] := rfl

theorem natStrCore_fuel_eq :
    ∀ n f f', n < f → n < f' → natStrCore f n = natStrCore f' n := by
  intro n
  induction n using Nat.strong_induction_on with
  | _ n ih =>
    intro f f' hf hf'
    match f, f' with
    | f + 1, f' + 1 =>
      by_cases h : n < 10
      · simp [natStrCore_succ, h]
      · have hdiv : n / 10 < n := Nat.div_lt_self (by omega) (by omega)
        rw [natStrCore_succ, natStrCore_succ, if_neg h, if_neg h,
          ih (n / 10) hdiv f f' (by omega) (by omega)]

theorem natStrCore_ne_nil {f n : Nat} (hf : n < f) :
    natStrCore f n ≠ [] := by
  match f with
  | f + 1 =>
    by_cases h : n < 10
    · simp [natStrCore_succ, h]
    · simp [natStrCore_succ, h]

theorem natStr_data_lt {n : Nat} (h : n < 10) :
    (natStr n).data = [Nat.digitChar n] := by
  simp [natStr, natStrCore_succ, h]

theorem natStr_data_ge {n : Nat} (h : 10 ≤ n) :
    (natStr n).data = (natStr (n / 10)).data ++ [Nat.digitChar (n % 10)] := by
  have hdiv : n / 10 < n := Nat.div_lt_self (by omega) (by omega)
  show natStrCore (n + 1) n = natStrCore (n / 10 + 1) (n / 10) ++ _
  rw [natStrCore_succ, if_neg (by omega : ¬ n < 10),
    natStrCore_fuel_eq (n / 10) n (n / 10 + 1) (by omega) (by omega)]

theorem digitChar_inj {a b : Nat} (ha : a < 10) (hb : b < 10)
    (h : Nat.digitChar a = Nat.digitChar b) : a = b := by
  interval_cases a <;> interval_cases b <;> first | rfl | exact absurd h (by decide)

theorem natStr_injective : Function.Injective natStr := by
  intro m n h
  have hdata : (natStr m).data = (natStr n).data := congrArg String.data h
  clear h
  induction m using Nat.strong_induction_on generalizing n with
  | _ m ih =>
    by_cases hm : m < 10 <;> by_cases hn : n < 10
    · rw [natStr_data_lt hm, natStr_data_lt hn] at hdata
      exact digitChar_inj hm hn (List.cons.injEq .. ▸ hdata).1
    · have hn' : (natStr n).data = (natStr (n / 10)).data ++ [Nat.digitChar (n % 10)] :=
        natStr_data_ge (by omega)
      rw [natStr_data_lt hm, hn'] at hdata
      have h2 : (natStr (n / 10)).data ≠ [] := by
        simpa [natStr] using natStrCore_ne_nil (Nat.lt_succ_self (n / 10))
      match h4 : (natStr (n / 10)).data with
      | [] => exact absurd h4 h2
      | c :: cs => rw [h4] at hdata; simp at hdata
    · have hm' : (natStr m).data = (natStr (m / 10)).data ++ [Nat.digitChar (m % 10)] :=
        natStr_data_ge (by omega)
      rw [hm', natStr_data_lt hn] at hdata
      have h2 : (natStr (m / 10)).data ≠ [] := by
        simpa [natStr] using natStrCore_ne_nil (Nat.lt_succ_self (m / 10))
      match h4 : (natStr (m / 10)).data with
      | [] => exact absurd h4 h2
      | c :: cs => rw [h4] at hdata; simp at hdata
    · have hm' : (natStr m).data = (natStr (m / 10)).data ++ [Nat.digitChar (m % 10)] :=
        natStr_data_ge (by omega)
      have hn' : (natStr n).data = (natStr (n / 10)).data ++ [Nat.digitChar (n % 10)] :=
        natStr_data_ge (by omega)
      rw [hm', hn'] at hdata
      have h1 := List.append_inj' hdata rfl
      have hdiv : m / 10 < m := Nat.div_lt_self (by omega) (by omega)
      have heq : m / 10 = n / 10 := ih (m / 10) hdiv h1.1
      have hmod : m % 10 = n % 10 :=
        digitChar_inj (Nat.mod_lt _ (by omega)) (Nat.mod_lt _ (by omega))
          (List.cons.injEq .. ▸ h1.2).1
      omega

theorem mkCand_injective (base ext : String) : Function.Injective (mkCand base ext) := by
  intro k j h
  have hd := congrArg String.data h
  simp only [mkCand, String.data_append] at hd
  exact natStr_injective (String.ext (List.append_cancel_left (List.append_cancel_right hd)))

theorem candAt_shift (finalName : String) (counter : Nat) (tempName : String) (j : Nat) :
    candAt finalName (counter + 1)
        (mkCand (baseNoExt finalName) (extname finalName) counter) j =
      candAt finalName counter tempName (j + 1) := by
  match j with
  | 0 => rfl
  | j + 1 =>
    show mkCand _ _ (counter + 1 + j) = mkCand _ _ (counter + (j + 1))
    congr 1
    omega

theorem collideLoop_first_unused (existing : List String) (finalName : String) :
    ∀ fuel counter tempName,
      (∃ j, j < fuel ∧ candAt finalName counter tempName j ∉ existing) →
      ∃ k, collideLoop existing finalName fuel counter tempName =
             candAt finalName counter tempName k ∧
           candAt finalName counter tempName k ∉ existing ∧
           ∀ j, j < k → candAt finalName counter tempName j ∈ existing := by
  intro fuel
  induction fuel with
  | zero =>
    intro counter tempName h
    obtain ⟨j, hj, _⟩ := h
    omega
  | succ fuel ih =>
    intro counter tempName h
    by_cases hmem : tempName ∈ existing
    · obtain ⟨j, hj, hfree⟩ := h
      match j with
      | 0 => exact absurd hmem hfree
      | j + 1 =>
        have hrec := ih (counter + 1)
          (mkCand (baseNoExt finalName) (extname finalName) counter)
          ⟨j, by omega, by rw [candAt_shift finalName counter tempName]; exact hfree⟩
        obtain ⟨k, hres, hkfree, hmin⟩ := hrec
        refine ⟨k + 1, ?_, ?_, ?_⟩
        · have hstep : collideLoop existing finalName (fuel + 1) counter tempName =
              collideLoop existing finalName fuel (counter + 1)
                (mkCand (baseNoExt finalName) (extname finalName) counter) := by
            simp [collideLoop, hmem]
          rw [hstep, hres, candAt_shift finalName counter tempName]
        · rw [← candAt_shift finalName counter tempName]
          exact hkfree
        · intro i hi
          match i with
          | 0 => exact hmem
          | i + 1 =>
            rw [← candAt_shift finalName counter tempName]
            exact hmin i (by omega)
    · refine ⟨0, ?_, hmem, ?_⟩
      · simp [collideLoop, hmem, candAt]
      · intro j hj
        exact absurd hj (Nat.not_lt_zero j)

theorem exists_free_cand (existing : List String) (base ext : String) :
    ∃ k, 1 ≤ k ∧ k ≤ existing.length + 1 ∧ mkCand base ext k ∉ existing := by
  by_contra hall
  push_neg at hall
  have hsub : (Finset.Icc 1 (existing.length + 1)).image (mkCand base ext) ⊆
      existing.toFinset := by
    intro x hx
    obtain ⟨k, hk, rfl⟩ := Finset.mem_image.mp hx
    rw [Finset.mem_Icc] at hk
    exact List.mem_toFinset.mpr (hall k hk.1 hk.2)
  have hcard := Finset.card_le_card hsub
  rw [Finset.card_image_of_injective _ (mkCand_injective base ext), Nat.card_Icc] at hcard
  have := List.toFinset_card_le existing
  omega

theorem allocateName_spec (existing : List String) (finalName : String) :
    ∃ k, allocateName existing finalName = candAt finalName 1 finalName k ∧
      candAt finalName 1 finalName k ∉ existing ∧
      ∀ j, j < k → candAt finalName 1 finalName j ∈ existing := by
  obtain ⟨k, hk1, hk2, hkfree⟩ :=
    exists_free_cand existing (baseNoExt finalName) (extname finalName)
  apply collideLoop_first_unused
  refine ⟨k, by omega, ?_⟩
  match k, hk1 with
  | k' + 1, _ =>
    show mkCand _ _ (1 + k') ∉ existing
    rw [Nat.add_comm]
    exact hkfree

theorem allocateName_not_mem (existing : List String) (finalName : String) :
    allocateName existing finalName ∉ existing := by
  obtain ⟨k, heq, hfree, _⟩ := allocateName_spec existing finalName
  rw [heq]
  exact hfree

theorem runUploads_succ (originalname : String) (start : List String) (n : Nat) :
    runUploads originalname start (n + 1) =
      runUploads originalname start n ++
        [allocateName (runUploads originalname start n) (candidateName "" originalname)] := rfl

theorem runUploads_length (originalname : String) (start : List String) (n : Nat) :
    (runUploads originalname start n).length = start.length + n := by
  induction n with
  | zero => rfl
  | succ n ih => rw [runUploads_succ]; simp [ih]; omega

theorem runUploads_prefix_le (originalname : String) (start : List String)
    {m n : Nat} (h : m ≤ n) :
    runUploads originalname start m <+: runUploads originalname start n := by
  induction n with
  | zero =>
    have hm : m = 0 := by omega
    subst hm
    exact List.prefix_rfl
  | succ n ih =>
    rcases Nat.lt_or_ge m (n + 1) with h1 | h2
    · exact (ih (by omega)).trans
        (by rw [runUploads_succ]; exact List.prefix_append _ _)
    · have hm : m = n + 1 := by omega
      subst hm
      exact List.prefix_rfl

theorem runUploads_new_nodup (originalname : String) (start : List String) (n : Nat) :
    ((runUploads originalname start n).drop start.length).Nodup := by
  induction n with
  | zero => simp [runUploads]
  | succ n ih =>
    have hlen : start.length ≤ (runUploads originalname start n).length := by
      rw [runUploads_length]; omega
    rw [runUploads_succ, List.drop_append_of_le_length hlen, List.nodup_append]
    refine ⟨ih, List.nodup_singleton _, ?_⟩
    intro a ha hb
    rw [List.mem_singleton] at hb
    subst hb
    exact allocateName_not_mem _ _ (List.drop_subset _ _ ha)

theorem runUploads_new_mem (originalname : String) (start : List String)
    {n N : Nat} (h : n < N) :
    allocateName (runUploads originalname start n) (candidateName "" originalname) ∈
      runUploads originalname start N := by
  have h1 : allocateName (runUploads originalname start n) (candidateName "" originalname) ∈
      runUploads originalname start (n + 1) := by
    rw [runUploads_succ]
    simp
  exact (runUploads_prefix_le originalname start (by omega : n + 1 ≤ N)).subset h1

theorem dropWhile_eq_self_of_length {α : Type} (p : α → Bool) :
    ∀ l : List α, (l.dropWhile p).length = l.length → l.dropWhile p = l := by
  intro l h
  cases l with
  | nil => rfl
  | cons a l =>
    by_cases hp : p a = true
    · rw [List.dropWhile_cons_of_pos hp] at h ⊢
      have hle := (@List.dropWhile_sublist _ l p).length_le
      simp at h
      exact absurd h (by omega)
    · rw [List.dropWhile_cons_of_neg hp]

theorem trimmed_dropWhile {s : String} (h : jsTrim s = s) :
    s.data.dropWhile isWsChar = s.data := by
  have hd : ((s.data.dropWhile isWsChar).reverse.dropWhile isWsChar).reverse = s.data :=
    congrArg String.data h
  apply dropWhile_eq_self_of_length
  have h1 := (@List.dropWhile_sublist _ s.data isWsChar).length_le
  have h2 := (@List.dropWhile_sublist _ (s.data.dropWhile isWsChar).reverse isWsChar).length_le
  have h3 := congrArg List.length hd
  simp only [List.length_reverse] at h2 h3
  omega

theorem trimmed_rev_dropWhile {s : String} (h : jsTrim s = s) :
    s.data.reverse.dropWhile isWsChar = s.data.reverse := by
  have hd : ((s.data.dropWhile isWsChar).reverse.dropWhile isWsChar).reverse = s.data :=
    congrArg String.data h
  rw [trimmed_dropWhile h] at hd
  have h2 := congrArg List.reverse hd
  simpa using h2

theorem jsTrim_ws_left (s : String) : jsTrim (" " ++ s) = jsTrim s := by
  apply String.ext
  show (((' ' :: s.data).dropWhile isWsChar).reverse.dropWhile isWsChar).reverse =
    ((s.data.dropWhile isWsChar).reverse.dropWhile isWsChar).reverse
  rw [List.dropWhile_cons_of_pos (by rfl : isWsChar ' ' = true)]

theorem jsTrim_ws_right (s : String) : jsTrim (s ++ " ") = jsTrim s := by
  apply String.ext
  show (((s.data ++ [' ']).dropWhile isWsChar).reverse.dropWhile isWsChar).reverse =
    ((s.data.dropWhile isWsChar).reverse.dropWhile isWsChar).reverse
  rw [List.dropWhile_append]
  by_cases he : (s.data.dropWhile isWsChar).isEmpty = true
  · rw [if_pos he, List.isEmpty_iff.mp he]
    rfl
  · rw [if_neg he, List.reverse_append]
    show ((' ' :: (s.data.dropWhile isWsChar).reverse).dropWhile isWsChar).reverse = _
    rw [List.dropWhile_cons_of_pos (by rfl : isWsChar ' ' = true)]

theorem cleanDir_ws_left (s : String) : cleanDir (" " ++ s) = cleanDir s := by
  by_cases hs : s = ""
  · subst hs
    decide
  · have hne : (" " ++ s) ≠ "" := by
      intro he
      have hd : (' ' :: s.data) = [] := congrArg String.data he
      exact List.noConfusion hd
    rw [cleanDir, cleanDir, if_pos hne, if_pos hs, jsTrim_ws_left]

theorem cleanDir_ws_right (s : String) : cleanDir (s ++ " ") = cleanDir s := by
  by_cases hs : s = ""
  · subst hs
    decide
  · have hne : (s ++ " ") ≠ "" := by
      intro he
      have hd : s.data ++ [' '] = [] := congrArg String.data he
      simp at hd
    rw [cleanDir, cleanDir, if_pos hne, if_pos hs, jsTrim_ws_right]

theorem jsTrim_slash_left {s : String} (h : jsTrim s = s) :
    jsTrim ("/" ++ s) = "/" ++ s := by
  apply String.ext
  show ((('/' :: s.data).dropWhile isWsChar).reverse.dropWhile isWsChar).reverse = '/' :: s.data
  rw [List.dropWhile_cons_of_neg (by decide : ¬ isWsChar '/' = true), List.reverse_cons,
    List.dropWhile_append]
  by_cases he : (s.data.reverse.dropWhile isWsChar).isEmpty = true
  · rw [trimmed_rev_dropWhile h] at he
    have h0 : s.data.reverse = [] := List.isEmpty_iff.mp he
    have h1 : s.data = [] := by simpa using congrArg List.reverse h0
    rw [if_pos (by rw [trimmed_rev_dropWhile h]; exact he), h1]
    rfl
  · rw [if_neg he, trimmed_rev_dropWhile h, List.reverse_append, List.reverse_reverse]
    rfl

theorem jsTrim_slash_right {s : String} (h : jsTrim s = s) :
    jsTrim (s ++ "/") = s ++ "/" := by
  apply String.ext
  show (((s.data ++ ['/']).dropWhile isWsChar).reverse.dropWhile isWsChar).reverse =
    s.data ++ ['/']
  rw [List.dropWhile_append, trimmed_dropWhile h]
  by_cases he : s.data.isEmpty = true
  · rw [if_pos he, List.isEmpty_iff.mp he]
    rfl
  · rw [if_neg he, List.reverse_append]
    show (('/' :: s.data.reverse).dropWhile isWsChar).reverse = s.data ++ ['/']
    rw [List.dropWhile_cons_of_neg (by decide : ¬ isWsChar '/' = true), List.reverse_cons,
      List.reverse_reverse]

theorem cleanDir_slash_left {s : String} (h : jsTrim s = s) :
    cleanDir ("/" ++ s) = cleanDir s := by
  by_cases hs : s = ""
  · subst hs
    decide
  · have hne : ("/" ++ s) ≠ "" := by
      intro he
      have hd : ('/' :: s.data) = [] := congrArg String.data he
      exact List.noConfusion hd
    rw [cleanDir, cleanDir, if_pos hne, if_pos hs, jsTrim_slash_left h, h]
    congr 1

theorem cleanDir_slash_right {s : String} (h : jsTrim s = s) :
    cleanDir (s ++ "/") = cleanDir s := by
  by_cases hs : s = ""
  · subst hs
    decide
  · have hne : (s ++ "/") ≠ "" := by
      intro he
      have hd : s.data ++ ['/'] = [] := congrArg String.data he
      simp at hd
    rw [cleanDir, cleanDir, if_pos hne, if_pos hs, jsTrim_slash_right h, h]
    apply String.ext
    show ((((s.data ++ ['/']).dropWhile (fun c => c == '/')).reverse.dropWhile
        (fun c => c == '/'))).reverse =
      (((s.data.dropWhile (fun c => c == '/')).reverse.dropWhile (fun c => c == '/'))).reverse
    rw [List.dropWhile_append]
    by_cases he : (s.data.dropWhile (fun c => c == '/')).isEmpty = true
    · rw [if_pos he, List.isEmpty_iff.mp he]
      rfl
    · rw [if_neg he, List.reverse_append]
      show (('/' :: (s.data.dropWhile (fun c => c == '/')).reverse).dropWhile
          (fun c => c == '/')).reverse = _
      rw [List.dropWhile_cons_of_pos (by rfl)]

theorem splitOnSlash_cons_slash (cs : List Char) :
    splitOnSlash ('/' :: cs) = [] :: splitOnSlash cs := by
  simp [splitOnSlash]

theorem splitOnSlash_ne_nil : ∀ cs : List Char, splitOnSlash cs ≠ [] := by
  intro cs
  cases cs with
  | nil => simp [splitOnSlash]
  | cons c cs => by_cases h : c = '/' <;> simp [splitOnSlash, h]

theorem normStep_empty_seg (acc : AbsPath) : normStep acc ⟨[]⟩ = acc := by
  unfold normStep
  rw [if_pos (Or.inl rfl)]

theorem dropWhile_head_not {α : Type} (p : α → Bool) :
    ∀ (l : List α) (c : α) (cs : List α), l.dropWhile p = c :: cs → p c = false := by
  intro l
  induction l with
  | nil =>
    intro c cs h
    exact absurd h (by simp)
  | cons a l ih =>
    intro c cs h
    by_cases hp : p a = true
    · rw [List.dropWhile_cons_of_pos hp] at h
      exact ih c cs h
    · rw [List.dropWhile_cons_of_neg hp] at h
      cases h
      simpa using hp

theorem endsWithSlash_stripTrailing (x : String) :
    endsWithSlash (stripTrailingSlashes x) = false := by
  unfold endsWithSlash stripTrailingSlashes
  rw [show ((⟨(x.data.reverse.dropWhile fun c => c == '/').reverse⟩ : String)).data =
      (x.data.reverse.dropWhile fun c => c == '/').reverse from rfl, List.reverse_reverse]
  cases hd : x.data.reverse.dropWhile (fun c => c == '/') with
  | nil => rfl
  | cons c cs =>
    show (c == '/') = false
    exact dropWhile_head_not (fun c => c == '/') x.data.reverse c cs hd

theorem endsWithSlash_cleanDir (raw : String) :
    endsWithSlash (cleanDir raw) = false := by
  unfold cleanDir
  split
  · exact endsWithSlash_stripTrailing _
  · rfl

theorem endsWithSlash_slash_left {s : String} (h : s ≠ "") :
    endsWithSlash ("/" ++ s) = endsWithSlash s := by
  have hd : ("/" ++ s).data = '/' :: s.data := by rw [String.data_append]; rfl
  unfold endsWithSlash
  rw [hd, List.reverse_cons]
  cases hrev : s.data.reverse with
  | nil =>
    have h0 : s.data = [] := by simpa using congrArg List.reverse hrev
    exact absurd (String.ext h0) h
  | cons c rest => simp

theorem joinBase_slash_left (root : AbsPath) (s : String) :
    (segsOf ("/" ++ s)).foldl normStep root = (segsOf s).foldl normStep root := by
  unfold segsOf
  have hd : ("/" ++ s).data = '/' :: s.data := by rw [String.data_append]; rfl
  rw [hd, splitOnSlash_cons_slash]
  simp only [List.map_cons, List.foldl_cons, normStep_empty_seg]

theorem joinPath_slash_left (root : AbsPath) {s : String} (h : s ≠ "") :
    joinPath root ("/" ++ s) = joinPath root s := by
  unfold joinPath
  rw [endsWithSlash_slash_left h, joinBase_slash_left root s]

theorem foldl_normStep_keeps (root : AbsPath) :
    ∀ (segs : List String) (acc : AbsPath), (∀ seg ∈ segs, seg ≠ "..") →
      root <+: acc → root <+: segs.foldl normStep acc := by
  intro segs
  induction segs with
  | nil =>
    intro acc _ h
    exact h
  | cons s segs ih =>
    intro acc hno h
    have hs : s ≠ ".." := hno s (List.mem_cons_self s segs)
    refine ih (normStep acc s) (fun t ht => hno t (List.mem_cons_of_mem s ht)) ?_
    by_cases h1 : s = "" ∨ s = "."
    · rw [normStep, if_pos h1]
      exact h
    · rw [normStep, if_neg h1, if_neg hs]
      exact h.trans (List.prefix_append acc [s])

theorem findEntry_unlink_self (fs : FS) (p : AbsPath) :
    findEntry (unlinkSync fs p) p = none := by
  unfold findEntry unlinkSync
  have hfind : List.find? (fun e => decide (e.1 = p))
      (List.filter (fun e => !decide (e.1 = p)) fs) = none := by
    rw [List.find?_eq_none]
    intro x hx
    have h2 := (List.mem_filter.mp hx).2
    simp at h2 ⊢
    exact h2
  rw [hfind]
  rfl

theorem findEntry_unlink_ne (fs : FS) {p q : AbsPath} (h : q ≠ p) :
    findEntry (unlinkSync fs p) q = findEntry fs q := by
  unfold findEntry unlinkSync
  induction fs with
  | nil => rfl
  | cons e fs ih =>
    by_cases he : e.1 = p
    · rw [List.filter_cons, if_neg (by simp [he]),
        List.find?_cons_of_neg _ (by simp [he]; exact Ne.symm h)]
      exact ih
    · rw [List.filter_cons, if_pos (by simp [he])]
      by_cases heq : e.1 = q
      · rw [List.find?_cons_of_pos _ (by simp [heq]), List.find?_cons_of_pos _ (by simp [heq])]
      · rw [List.find?_cons_of_neg _ (by simp [heq]), List.find?_cons_of_neg _ (by simp [heq])]
        exact ih

theorem statSync_marker_not_file (fs : FS) {p : AbsPath} {sz : Nat}
    (hm : hasMarker p = true) : statSync fs p ≠ some (Entry.file sz) := by
  unfold statSync
  rw [if_pos hm]
  cases hfe : findEntry fs p.dropLast with
  | none => simp
  | some e =>
    cases e with
    | file s => simp
    | dir s => simp

theorem statSync_file_no_marker (fs : FS) {p : AbsPath} {sz : Nat}
    (h : statSync fs p = some (Entry.file sz)) :
    hasMarker p = false ∧ findEntry fs p = some (Entry.file sz) := by
  by_cases hm : hasMarker p = true
  · exact absurd h (statSync_marker_not_file fs hm)
  · have hm' : hasMarker p = false := by simpa using hm
    refine ⟨hm', ?_⟩
    unfold statSync at h
    rw [if_neg hm] at h
    exact h

theorem statSync_unlink_self_of_file (fs : FS) {p : AbsPath} {sz : Nat}
    (h : statSync fs p = some (Entry.file sz)) :
    statSync (unlinkSync fs p) p = none := by
  obtain ⟨hm, _⟩ := statSync_file_no_marker fs h
  unfold statSync
  rw [if_neg (by simp [hm])]
  exact findEntry_unlink_self fs p

theorem statSync_unlink_preserve (fs : FS) {p q : AbsPath} {sz : Nat}
    (hfile : findEntry fs p = some (Entry.file sz)) (hq : q ≠ p) :
    statSync (unlinkSync fs p) q = statSync fs q := by
  unfold statSync
  by_cases hm : hasMarker q = true
  · rw [if_pos hm, if_pos hm]
    by_cases hd : q.dropLast = p
    · rw [hd, findEntry_unlink_self, hfile]
    · rw [findEntry_unlink_ne fs hd]
  · rw [if_neg hm, if_neg hm]
    exact findEntry_unlink_ne fs hq

/-- C1 (counterexample): the raw directory string `"../stolen"` survives
`cleanDir` (only whitespace and outer slashes are stripped), resolves to
`srv/stolen`, which is outside the storage root `srv/public`, and the
destination callback creates a directory there: resolution neither
neutralizes the `..` segment nor fails with a PathEscape error. -/
theorem c1_path_escape_counterexample :
    (¬ rootEx <+: (storageDestination fsEscape rootEx "../stolen").1) ∧
    (storageDestination fsEscape rootEx "../stolen").1 = ["srv", "stolen"] ∧
    statSync fsEscape ["srv", "stolen"] = none ∧
    statSync (storageDestination fsEscape rootEx "../stolen").2 ["srv", "stolen"] =
      some (Entry.dir 0) := by
  exact ⟨by decide, by decide, by decide, by decide⟩

/-- C1 (amended): upload path resolution strips leading slashes, so
absolute-path prefixes are neutralized, and whenever the cleaned
directory string contains no `..` segment the resolved destination stays
within the storage root; but a cleaned string containing `..` segments
can resolve outside the root (see the counterexample), with no
PathEscape error and with directory creation performed at the resolved
location. -/
theorem c1_amended_no_dotdot_contained (root : AbsPath) (raw : String)
    (h : (".." : String) ∉ segsOf (cleanDir raw)) :
    root <+: destinationDir root raw := by
  unfold destinationDir joinPath
  rw [endsWithSlash_cleanDir, if_neg (by simp)]
  exact foldl_normStep_keeps root (segsOf (cleanDir raw)) root
    (fun seg hs heq => h (heq ▸ hs)) List.prefix_rfl

/-- Witness for C1 (amended): the absolute-looking input `/etc/passwd`
cleans to `etc/passwd`, has no `..` segment, and resolves inside the
storage root. -/
theorem c1_amended_no_dotdot_contained_witness :
    (".." : String) ∉ segsOf (cleanDir "/etc/passwd") ∧
    rootEx <+: destinationDir rootEx "/etc/passwd" :=
  ⟨by decide, c1_amended_no_dotdot_contained rootEx "/etc/passwd" (by decide)⟩

/-- C2: the info and delete handlers join the raw captured path to the
storage root with no normalization and no containment check: the input
`"../secret"` resolves to `srv/secret`, outside the root `srv/public`;
Get Info stats it and returns its metadata, and Delete unlinks it. -/
theorem c2_readside_traversal_escape :
    (¬ rootEx <+: joinPath rootEx "../secret") ∧
    getInfo fsSecret reqEx rootEx "../secret" =
      Except.ok (ObjectRecord.mk "secret" "../secret"
        (some "http://localhost:9000/../secret") 5 true false) ∧
    deleteFile fsSecret rootEx "../secret" =
      (Except.ok "../secret", [(["srv", "public"], Entry.dir 0)]) := by
  exact ⟨by decide, by rfl, by rfl⟩

/-- C3: the collision loop returns the first unused candidate: index 0 is
the incoming candidate name, index `k+1` is `{base}_{k+1}{ext}` (the
counter starts at 1 and increments by one per iteration), every earlier
candidate is present in the directory, and the returned one is not. In
particular a second upload of `photo.jpg` into a directory already
holding it is stored as `photo_1.jpg`, and the first file stays. -/
theorem c3_collision_first_unused :
    (∀ (existing : List String) (finalName : String), ∃ k,
        allocateName existing finalName = candAt finalName 1 finalName k ∧
        candAt finalName 1 finalName k ∉ existing ∧
        ∀ j, j < k → candAt finalName 1 finalName j ∈ existing) ∧
    allocateName [] "photo.jpg" = "photo.jpg" ∧
    allocateName ["photo.jpg"] "photo.jpg" = "photo_1.jpg" ∧
    runUploads "photo.jpg" [] 2 = ["photo.jpg", "photo_1.jpg"] := by
  exact ⟨allocateName_spec, by decide, by decide, by decide⟩

/-- Witness for C3: the duplicate-upload scenario evaluated concretely. -/
theorem c3_collision_first_unused_witness :
    allocateName ["photo.jpg"] "photo.jpg" = "photo_1.jpg" ∧
    candAt "photo.jpg" 1 "photo.jpg" 1 = "photo_1.jpg" ∧
    candAt "photo.jpg" 1 "photo.jpg" 0 ∈ ["photo.jpg"] := by
  have h := c3_collision_first_unused.1 ["photo.jpg"] "photo.jpg"
  exact ⟨by decide, by decide, by decide⟩

/-- C4: after `N` sequential uploads of one original name with no desired
name into the same directory, the `N` allocated names are pairwise
distinct, each allocation avoids every name already present (no
overwrite), and every allocated name is still present at the end. -/
theorem c4_sequential_uploads_unique (originalname : String) (start : List String) (N : Nat) :
    (runUploads originalname start N).length = start.length + N ∧
    ((runUploads originalname start N).drop start.length).Nodup ∧
    ∀ n, n < N →
      allocateName (runUploads originalname start n) (candidateName "" originalname) ∉
        runUploads originalname start n ∧
      allocateName (runUploads originalname start n) (candidateName "" originalname) ∈
        runUploads originalname start N :=
  ⟨runUploads_length originalname start N, runUploads_new_nodup originalname start N,
    fun _ hn => ⟨allocateName_not_mem _ _, runUploads_new_mem originalname start hn⟩⟩

/-- Witness for C4: two uploads of `a.txt` into an empty directory. -/
theorem c4_sequential_uploads_unique_witness :
    (runUploads "a.txt" ([] : List String) 2).length = ([] : List String).length + 2 ∧
    ((runUploads "a.txt" ([] : List String) 2).drop ([] : List String).length).Nodup ∧
    (allocateName (runUploads "a.txt" ([] : List String) 1) (candidateName "" "a.txt") ∉
      runUploads "a.txt" ([] : List String) 1 ∧
    allocateName (runUploads "a.txt" ([] : List String) 1) (candidateName "" "a.txt") ∈
      runUploads "a.txt" ([] : List String) 2) := by
  have h := c4_sequential_uploads_unique "a.txt" [] 2
  exact ⟨h.1, h.2.1, h.2.2 1 (by omega)⟩

/-- C5: a non-empty (trimmed) desired name with an extension of its own is
used verbatim as the candidate final name; one without an extension gets
the original file's extension appended. -/
theorem c5_desired_name_extension (fileNameParam originalname : String)
    (htrim : jsTrim fileNameParam = fileNameParam) (hne : fileNameParam ≠ "") :
    (extname fileNameParam ≠ "" →
      candidateName fileNameParam originalname = fileNameParam) ∧
    (extname fileNameParam = "" →
      candidateName fileNameParam originalname = fileNameParam ++ extname originalname) := by
  constructor <;> intro hext <;> simp [candidateName, htrim, hne, hext]

/-- Witness for C5: `report.pdf` wins over the original `scan.png`'s
extension; `report` gets `.png` appended. -/
theorem c5_desired_name_extension_witness :
    candidateName "report.pdf" "scan.png" = "report.pdf" ∧
    candidateName "report" "scan.png" = "report.png" := by
  constructor
  · exact (c5_desired_name_extension "report.pdf" "scan.png" (by decide) (by decide)).1
      (by decide)
  · have h := (c5_desired_name_extension "report" "scan.png" (by decide) (by decide)).2
      (by decide)
    rw [h]
    decide

/-- C6: Delete removes a single regular file only: a missing target fails
with NotFound and leaves the filesystem unchanged; a directory target
fails with NotAFile and leaves the filesystem unchanged; a regular file
is unlinked, after which its own binding is gone and every other path is
untouched. -/
theorem c6_delete_single_file (fs : FS) (root : AbsPath) (rawPath : String) :
    (statSync fs (joinPath root rawPath) = none →
      deleteFile fs root rawPath = (Except.error ApiError.NotFound, fs)) ∧
    (∀ sz, statSync fs (joinPath root rawPath) = some (Entry.dir sz) →
      deleteFile fs root rawPath = (Except.error ApiError.NotAFile, fs)) ∧
    (∀ sz, statSync fs (joinPath root rawPath) = some (Entry.file sz) →
      deleteFile fs root rawPath =
        (Except.ok rawPath, unlinkSync fs (joinPath root rawPath)) ∧
      statSync (unlinkSync fs (joinPath root rawPath)) (joinPath root rawPath) = none ∧
      ∀ q, q ≠ joinPath root rawPath →
        statSync (unlinkSync fs (joinPath root rawPath)) q = statSync fs q) := by
  refine ⟨?_, ?_, ?_⟩
  · intro h
    simp [deleteFile, existsSync, h]
  · intro sz h
    simp [deleteFile, existsSync, statIsFile, h]
  · intro sz h
    obtain ⟨_, hfind⟩ := statSync_file_no_marker fs h
    refine ⟨?_, statSync_unlink_self_of_file fs h,
      fun _ hq => statSync_unlink_preserve fs hfind hq⟩
    simp [deleteFile, existsSync, statIsFile, h]

/-- Witness for C6: deleting the directory `pics` fails with NotAFile and
the filesystem is unchanged. -/
theorem c6_delete_single_file_witness :
    deleteFile fsPics rootEx "pics" = (Except.error ApiError.NotAFile, fsPics) :=
  (c6_delete_single_file fsPics rootEx "pics").2.1 0 (by decide)

/-- C7: after a successful Delete of a relative path, Get Info on the same
relative path fails with NotFound. -/
theorem c7_delete_then_info_not_found (fs : FS) (req : Req) (root : AbsPath)
    (rawPath msg : String) (fs' : FS)
    (h : deleteFile fs root rawPath = (Except.ok msg, fs')) :
    getInfo fs' req root rawPath = Except.error ApiError.NotFound := by
  by_cases h1 : existsSync fs (joinPath root rawPath) = false
  · simp [deleteFile, h1] at h
  · by_cases h2 : statIsFile fs (joinPath root rawPath) = false
    · simp [deleteFile, h1, h2] at h
    · have hsf : statIsFile fs (joinPath root rawPath) = true := by
        cases hb : statIsFile fs (joinPath root rawPath)
        · exact absurd hb h2
        · rfl
      have hfile : ∃ sz, statSync fs (joinPath root rawPath) = some (Entry.file sz) := by
        unfold statIsFile at hsf
        cases hst : statSync fs (joinPath root rawPath) with
        | none => rw [hst] at hsf; simp at hsf
        | some e =>
          cases e with
          | file s => exact ⟨s, rfl⟩
          | dir s => rw [hst] at hsf; simp at hsf
      obtain ⟨sz, hfile⟩ := hfile
      have hfs' : fs' = unlinkSync fs (joinPath root rawPath) := by
        simp [deleteFile, h1, h2] at h
        exact h.2.symm
      subst hfs'
      simp [getInfo, existsSync, statSync_unlink_self_of_file fs hfile]

/-- Witness for C7: deleting `a.txt` and then asking for its info. -/
theorem c7_delete_then_info_not_found_witness :
    getInfo [(["srv", "public"], Entry.dir 0)] reqEx rootEx "a.txt" =
      Except.error ApiError.NotFound :=
  c7_delete_then_info_not_found fsOneFile reqEx rootEx "a.txt" "a.txt"
    [(["srv", "public"], Entry.dir 0)] (by rfl)

/-- C8: List fails with NotFound when the resolved directory is absent,
with NotADirectory when it is a regular file, and otherwise returns one
record per immediate child together with a count equal to the number of
those children (the record names are exactly the directory listing). -/
theorem c8_list_errors_and_count (fs : FS) (req : Req) (root : AbsPath) (folder : String) :
    (statSync fs (joinPath root folder) = none →
      listFiles fs req root folder = Except.error ApiError.NotFound) ∧
    (∀ sz, statSync fs (joinPath root folder) = some (Entry.file sz) →
      listFiles fs req root folder = Except.error ApiError.NotADirectory) ∧
    (∀ sz, statSync fs (joinPath root folder) = some (Entry.dir sz) →
      listFiles fs req root folder =
        Except.ok
          (((childrenOf fs (joinPath root folder)).map (recordOfChild req folder)).length,
            (childrenOf fs (joinPath root folder)).map (recordOfChild req folder)) ∧
      ((childrenOf fs (joinPath root folder)).map (recordOfChild req folder)).length =
        (readdirSync fs (joinPath root folder)).length ∧
      ((childrenOf fs (joinPath root folder)).map (recordOfChild req folder)).map
          ObjectRecord.name = readdirSync fs (joinPath root folder)) := by
  refine ⟨?_, ?_, ?_⟩
  · intro h
    simp [listFiles, existsSync, h]
  · intro sz h
    simp [listFiles, existsSync, statIsDirectory, h]
  · intro sz h
    refine ⟨by simp [listFiles, existsSync, statIsDirectory, h], by simp [readdirSync], ?_⟩
    simp only [readdirSync, List.map_map]
    rfl

/-- Witness for C8: listing with a regular file as target directory fails
with NotADirectory. -/
theorem c8_list_errors_and_count_witness :
    listFiles fsOneFile reqEx rootEx "a.txt" = Except.error ApiError.NotADirectory :=
  (c8_list_errors_and_count fsOneFile reqEx rootEx "a.txt").2.1 3 (by decide)

/-- C9 (counterexample): the list handler does not apply the Path
Resolver's normalization to its directory argument: `" pics"` and
`"pics"` normalize identically under `cleanDir`, yet List finds `pics`
and fails with NotFound on `" pics"`, so the two arguments do not
resolve to the same location on the read side. -/
theorem c9_normalization_counterexample :
    cleanDir " pics" = cleanDir "pics" ∧
    listFiles fsPics reqEx rootEx "pics" = Except.ok (0, []) ∧
    listFiles fsPics reqEx rootEx " pics" = Except.error ApiError.NotFound := by
  exact ⟨by decide, by rfl, by rfl⟩

/-- C9 (amended): only the upload flow applies the trim-and-strip
normalization; list, info and delete join the raw string directly, so on
the read side neither whitespace (see the counterexample) nor a trailing
slash is normalized away: the trailing separator survives the join and,
on a regular-file target, makes List and Delete fail with NotFound where
the slash-free argument is found, while on a directory target both
resolve identically. Leading slashes are dropped as empty path segments
in every flow, and the upload destination is invariant under surrounding
whitespace and, for an already-trimmed string, under outer slashes. -/
theorem c9_amended_normalization (root : AbsPath) (s : String) :
    (s ≠ "" → joinPath root ("/" ++ s) = joinPath root s) ∧
    destinationDir root (" " ++ s) = destinationDir root s ∧
    destinationDir root (s ++ " ") = destinationDir root s ∧
    (jsTrim s = s →
      destinationDir root ("/" ++ s) = destinationDir root s ∧
      destinationDir root (s ++ "/") = destinationDir root s) ∧
    listFiles fsOneFile reqEx rootEx "a.txt/" = Except.error ApiError.NotFound ∧
    listFiles fsOneFile reqEx rootEx "a.txt" = Except.error ApiError.NotADirectory ∧
    deleteFile fsOneFile rootEx "a.txt/" = (Except.error ApiError.NotFound, fsOneFile) ∧
    deleteFile fsOneFile rootEx "a.txt" =
      (Except.ok "a.txt", [(["srv", "public"], Entry.dir 0)]) ∧
    listFiles fsPics reqEx rootEx "pics/" = Except.ok (0, []) := by
  refine ⟨fun hne => joinPath_slash_left root hne, ?_, ?_, ?_,
    by rfl, by rfl, by rfl, by rfl, by rfl⟩
  · unfold destinationDir
    rw [cleanDir_ws_left]
  · unfold destinationDir
    rw [cleanDir_ws_right]
  · intro h
    constructor
    · unfold destinationDir
      rw [cleanDir_slash_left h]
    · unfold destinationDir
      rw [cleanDir_slash_right h]

/-- Witness for C9 (amended): variants of `pics` under each flow. -/
theorem c9_amended_normalization_witness :
    joinPath rootEx ("/" ++ "pics") = joinPath rootEx "pics" ∧
    destinationDir rootEx (" " ++ "pics") = destinationDir rootEx "pics" ∧
    destinationDir rootEx ("pics" ++ "/") = destinationDir rootEx "pics" := by
  have h := c9_amended_normalization rootEx "pics"
  exact ⟨h.1 (by decide), h.2.1, (h.2.2.2.1 (by decide)).2⟩

/-- C10 (counterexample): Get Info on the directory `docs` returns a
record whose `isDirectory` flag is true and whose URL is populated —
contradicting the claim that a record for a directory has no URL. -/
theorem c10_url_counterexample :
    getInfo fsDocs reqEx rootEx "docs" =
      Except.ok (ObjectRecord.mk "docs" "docs"
        (some "http://localhost:9000/docs") 4096 false true) ∧
    statIsDirectory fsDocs (joinPath rootEx "docs") = true ∧
    (ObjectRecord.mk "docs" "docs"
      (some "http://localhost:9000/docs") 4096 false true).url ≠ none := by
  exact ⟨by rfl, by decide, by decide⟩

/-- C10 (amended): in the List handler the URL field is populated exactly
for regular files (directory records get none); the Get Info handler
populates the URL for every record it returns, directories included. -/
theorem c10_amended_url_population :
    (∀ (fs : FS) (req : Req) (root : AbsPath) (folder : String) (n : Nat)
        (recs : List ObjectRecord), listFiles fs req root folder = Except.ok (n, recs) →
      ∀ r ∈ recs,
        (r.isDirectory = true → r.url = none) ∧
        (r.isFile = true → r.url = some (urlFor req r.relativePath))) ∧
    (∀ (fs : FS) (req : Req) (root : AbsPath) (rawPath : String) (rec : ObjectRecord),
      getInfo fs req root rawPath = Except.ok rec →
      rec.url = some (urlFor req rawPath)) := by
  constructor
  · intro fs req root folder n recs h r hr
    by_cases h1 : existsSync fs (joinPath root folder) = false
    · simp [listFiles, h1] at h
    · by_cases h2 : statIsDirectory fs (joinPath root folder) = false
      · simp [listFiles, h1, h2] at h
      · simp only [listFiles, if_neg h1, if_neg h2, Except.ok.injEq, Prod.mk.injEq] at h
        obtain ⟨hn, hrecs⟩ := h
        subst hrecs
        obtain ⟨e, he, rfl⟩ := List.mem_map.mp hr
        cases hE : e.2 with
        | file s =>
          constructor
          · intro hh
            exact absurd hh (by simp [recordOfChild, hE, entryIsDirectory])
          · intro hh
            simp [recordOfChild, hE, entryIsFile]
        | dir s =>
          constructor
          · intro hh
            simp [recordOfChild, hE, entryIsFile]
          · intro hh
            exact absurd hh (by simp [recordOfChild, hE, entryIsFile])
  · intro fs req root rawPath rec h
    by_cases h1 : existsSync fs (joinPath root rawPath) = false
    · simp [getInfo, h1] at h
    · cases hst : statSync fs (joinPath root rawPath) with
      | none => simp [getInfo, h1, hst] at h
      | some st =>
        simp only [getInfo, if_neg h1, hst, Except.ok.injEq] at h
        rw [← h]

/-- Witness for C10 (amended): the Get Info record for `docs` carries the
request-derived URL. -/
theorem c10_amended_url_population_witness :
    (some "http://localhost:9000/docs" : Option String) = some (urlFor reqEx "docs") := by
  have h := c10_amended_url_population.2 fsDocs reqEx rootEx "docs"
    (ObjectRecord.mk "docs" "docs"
      (some "http://localhost:9000/docs") 4096 false true) (by rfl)
  exact h
